import Mathlib

/-!
Verification development for the LitData Viewer repository.

The repository is a Tauri desktop application for browsing LitData chunked
`.bin` shard files.  The binary reading engine (manifest loading, shard
offset-table decoding, record extraction, content previewing, leaf
materialization) lives in the Rust backend, which is not part of the
checked-in frontend sources; those components are modelled here from the
specification.  The frontend TypeScript sources (the zustand selection
store, the typed Tauri command wrappers, and the file-picker
classification) are embedded directly from the source files.

Byte sequences are modelled as `List Nat` (one entry per byte), strings as
Lean `String`, and fallible operations return `Except CoreErr`.
-/

deriving instance DecidableEq for Except

namespace LitData

/-- Modelled from the spec: the error taxonomy of §7 (`NotFound`,
`Malformed`, `CorruptShard`, `IndexOutOfRange`, `UnsupportedCompression`,
`ResourceLimit`, `IoError`). -/
inductive CoreErr where
  | notFound
  | malformed
  | corruptShard
  | indexOutOfRange
  | unsupportedCompression
  | resourceLimit
  | ioError
deriving DecidableEq, Repr

/-- Modelled from the spec: read one little-endian u32 at byte position
`pos` of the buffer; `none` when fewer than four bytes remain. -/
def readU32 (bs : List Nat) (pos : Nat) : Option Nat :=
  if pos + 4 ≤ bs.length then
    some (bs.getD pos 0 + 256 * bs.getD (pos + 1) 0 +
          65536 * bs.getD (pos + 2) 0 + 16777216 * bs.getD (pos + 3) 0)
  else none

/-- Modelled from the spec: read `count` consecutive little-endian u32
values starting at byte position `pos`. -/
def readU32s (bs : List Nat) (pos : Nat) : Nat → Option (List Nat)
  | 0 => some []
  | count + 1 =>
    match readU32 bs pos with
    | none => none
    | some v =>
      match readU32s bs (pos + 4) count with
      | none => none
      | some rest => some (v :: rest)

/-- Boolean check that every consecutive pair of the list is
non-decreasing (`offset[i] <= offset[i+1]`). -/
def chainNondec : List Nat → Bool
  | [] => true
  | [_] => true
  | a :: b :: t => Nat.ble a b && chainNondec (b :: t)

/-- Modelled from the spec: the §4.2 offset-table invariants as one
boolean check: `offset[0] == 0`, consecutive offsets non-decreasing, and
the final offset equal to the data-region byte count. -/
def offsetsValid (offs : List Nat) (dataLen : Nat) : Bool :=
  (offs.getD 0 0 == 0) && chainNondec offs &&
    (offs.getD (offs.length - 1) 0 == dataLen)

/-- Modelled from the spec: a decoded shard — `recordCount` (N), the N+1
record offsets, and the data region (the bytes after the offset table). -/
structure ShardHandle where
  recordCount : Nat
  offsets : List Nat
  data : List Nat
deriving DecidableEq, Repr

/-- Modelled from the spec: decode and validate the record offset table
for a declared record count `n` (§4.2). -/
def openShardWith (n : Nat) (bytes : List Nat) : Except CoreErr ShardHandle :=
  match readU32s bytes 4 (n + 1) with
  | none => .error .corruptShard
  | some offs =>
    if offsetsValid offs (bytes.length - (4 + 4 * (n + 1))) then
      .ok ⟨n, offs, bytes.drop (4 + 4 * (n + 1))⟩
    else .error .corruptShard

/-- Modelled from the spec: `openShard` of §4.2.  Bytes `[0,4)` hold the
record count N; bytes `[4, 4+4*(N+1))` hold the record offset table; the
rest is the data region.  A missing or short table, or any offset-table
invariant violation, fails with `CorruptShard`. -/
def openShard (bytes : List Nat) : Except CoreErr ShardHandle :=
  match readU32 bytes 0 with
  | none => .error .corruptShard
  | some n => openShardWith n bytes

/-- Modelled from the spec: `sliceRecord(i)` of §4.2 — bounds-checked
slice of record `i` out of the data region; out-of-range fails with
`IndexOutOfRange`. -/
def sliceRecord (h : ShardHandle) (i : Nat) : Except CoreErr (List Nat) :=
  if i < h.recordCount then
    .ok ((h.data.drop (h.offsets.getD i 0)).take
          (h.offsets.getD (i + 1) 0 - h.offsets.getD i 0))
  else .error .indexOutOfRange

/-- Modelled from the spec: decode the §4.3 field sub-offset table of a
multi-field record: `fieldCount + 1` u32 offsets followed by the payload
region; the same offset-table invariants apply at this nested scope. -/
def decodeSubTable (fc : Nat) (b : List Nat) :
    Except CoreErr (List Nat × List Nat) :=
  match readU32s b 0 (fc + 1) with
  | none => .error .corruptShard
  | some subs =>
    if offsetsValid subs (b.drop (4 * (fc + 1))).length then
      .ok (subs, b.drop (4 * (fc + 1)))
    else .error .corruptShard

/-- Differences of consecutive list entries; applied to a decoded
sub-offset table this yields the per-field byte sizes
`subOffset[j+1] - subOffset[j]`. -/
def consecutiveDiffs : List Nat → List Nat
  | [] => []
  | [_] => []
  | a :: b :: t => (b - a) :: consecutiveDiffs (b :: t)

/-- Modelled from the spec: per-field byte sizes of one record (§4.3).
A single-field record's bytes are the field itself; a multi-field record
carries a sub-offset table whose consecutive differences are the sizes. -/
def fieldSizes (fc : Nat) (b : List Nat) : Except CoreErr (List Nat) :=
  if fc = 1 then .ok [b.length]
  else
    match decodeSubTable fc b with
    | .error e => .error e
    | .ok sp => .ok (consecutiveDiffs sp.1)

/-- Modelled from the spec: `FieldMeta` of §3 — field position and byte
size. -/
structure FieldMeta where
  fieldIndex : Nat
  byteSize : Nat
deriving DecidableEq, Repr

/-- Modelled from the spec: `RecordMeta` of §3 — record index, full byte
length including sub-header, and the ordered field metadata. -/
structure RecordMeta where
  recordIndex : Nat
  totalBytes : Nat
  fields : List FieldMeta
deriving DecidableEq, Repr

/-- Build the ordered `FieldMeta` list from field sizes, numbering fields
from `j`. -/
def mkFields : Nat → List Nat → List FieldMeta
  | _, [] => []
  | j, s :: t => ⟨j, s⟩ :: mkFields (j + 1) t

/-- Modelled from the spec: assemble the `RecordMeta` of record `i` from
its raw bytes (§4.3): `totalBytes` is the full record length and the
field sizes come from `fieldSizes`. -/
def recordMetaOf (fc i : Nat) (b : List Nat) : Except CoreErr RecordMeta :=
  match fieldSizes fc b with
  | .error e => .error e
  | .ok sizes => .ok ⟨i, b.length, mkFields 0 sizes⟩

/-- Prepend one fallible record to a fallible record list, propagating
the first error. -/
def consRecord (m : Except CoreErr RecordMeta)
    (rest : Except CoreErr (List RecordMeta)) :
    Except CoreErr (List RecordMeta) :=
  match m with
  | .error e => .error e
  | .ok mv =>
    match rest with
    | .error e => .error e
    | .ok rs => .ok (mv :: rs)

/-- Modelled from the spec: the `RecordMeta` of record `i` — slice the
record bytes and decode its field sizes. -/
def recordAt (h : ShardHandle) (fc i : Nat) : Except CoreErr RecordMeta :=
  match sliceRecord h i with
  | .error e => .error e
  | .ok b => recordMetaOf fc i b

/-- Collect the `RecordMeta` of records `i, i+1, ..., i+k-1` in order,
propagating the first error. -/
def collectFrom (h : ShardHandle) (fc : Nat) :
    Nat → Nat → Except CoreErr (List RecordMeta)
  | _, 0 => .ok []
  | i, k + 1 => consRecord (recordAt h fc i) (collectFrom h fc (i + 1) k)

/-- Modelled from the spec: `listRecords(handle, fieldFormats)` of §4.3 —
the ordered sequence of `RecordMeta` for every record of the shard. -/
def listRecords (h : ShardHandle) (fc : Nat) :
    Except CoreErr (List RecordMeta) :=
  collectFrom h fc 0 h.recordCount

/-- Modelled from the spec: extract field `j` out of the raw bytes of
one record (§4.3) — the whole record for a single-field dataset, else
the sub-offset-table slice; an out-of-range field index fails with
`IndexOutOfRange`. -/
def readFieldFrom (fc j : Nat) (b : List Nat) : Except CoreErr (List Nat) :=
  if j < fc then
    if fc = 1 then .ok b
    else
      match decodeSubTable fc b with
      | .error e => .error e
      | .ok sp =>
        .ok ((sp.2.drop (sp.1.getD j 0)).take
              (sp.1.getD (j + 1) 0 - sp.1.getD j 0))
  else .error .indexOutOfRange

/-- Modelled from the spec: `readField` of §4.3 — the raw bytes of field
`j` of record `i`; out-of-range record or field index fails with
`IndexOutOfRange`. -/
def readField (h : ShardHandle) (fc i j : Nat) :
    Except CoreErr (List Nat) :=
  match sliceRecord h i with
  | .error e => .error e
  | .ok b => readFieldFrom fc j b

/-- True when the byte is a printable ASCII character or ordinary
whitespace (tab, newline, carriage return). -/
def isPrintableByte (b : Nat) : Bool :=
  decide (32 ≤ b ∧ b < 127) || b == 9 || b == 10 || b == 13

/-- Count of bytes that are neither printable ASCII nor whitespace. -/
def nonPrintableCount (l : List Nat) : Nat :=
  (l.filter (fun b => !(isPrintableByte b))).length

/-- True when the byte is a UTF-8 continuation byte (`10xxxxxx`). -/
def isCont (b : Nat) : Bool := decide (128 ≤ b ∧ b ≤ 191)

/-- Modelled from the spec: strict UTF-8 validity of a byte sequence
(used by the §4.4 binary/text classifier). -/
def validUtf8 : List Nat → Bool
  | [] => true
  | b :: rest =>
    if b ≤ 127 then validUtf8 rest
    else if b ≤ 193 then false
    else if b ≤ 223 then
      match rest with
      | c1 :: rest2 => isCont c1 && validUtf8 rest2
      | [] => false
    else if b ≤ 239 then
      match rest with
      | c1 :: c2 :: rest2 =>
        (if b = 224 then decide (160 ≤ c1 ∧ c1 ≤ 191)
         else if b = 237 then decide (128 ≤ c1 ∧ c1 ≤ 159)
         else isCont c1) && isCont c2 && validUtf8 rest2
      | _ => false
    else if b ≤ 244 then
      match rest with
      | c1 :: c2 :: c3 :: rest2 =>
        (if b = 240 then decide (144 ≤ c1 ∧ c1 ≤ 191)
         else if b = 244 then decide (128 ≤ c1 ∧ c1 ≤ 143)
         else isCont c1) && isCont c2 && isCont c3 && validUtf8 rest2
      | _ => false
    else false

/-- Modelled from the spec: lossy UTF-8 decoding of the full field into a
codepoint sequence, replacing each invalid byte with U+FFFD (§4.4 text
preview). -/
def decodeLossy : List Nat → List Nat
  | [] => []
  | b :: rest =>
    if b ≤ 127 then b :: decodeLossy rest
    else if b ≤ 193 then 65533 :: decodeLossy rest
    else if b ≤ 223 then
      match rest with
      | c1 :: rest2 =>
        if isCont c1 then ((b - 192) * 64 + (c1 - 128)) :: decodeLossy rest2
        else 65533 :: decodeLossy (c1 :: rest2)
      | [] => [65533]
    else if b ≤ 239 then
      match rest with
      | c1 :: c2 :: rest2 =>
        if isCont c1 && isCont c2 then
          ((b - 224) * 4096 + (c1 - 128) * 64 + (c2 - 128)) :: decodeLossy rest2
        else 65533 :: decodeLossy (c1 :: c2 :: rest2)
      | [c1] => 65533 :: decodeLossy [c1]
      | [] => [65533]
    else if b ≤ 244 then
      match rest with
      | c1 :: c2 :: c3 :: rest2 =>
        if isCont c1 && isCont c2 && isCont c3 then
          ((b - 240) * 262144 + (c1 - 128) * 4096 + (c2 - 128) * 64 + (c3 - 128))
            :: decodeLossy rest2
        else 65533 :: decodeLossy (c1 :: c2 :: c3 :: rest2)
      | [c1, c2] => 65533 :: decodeLossy [c1, c2]
      | [c1] => 65533 :: decodeLossy [c1]
      | [] => [65533]
    else 65533 :: decodeLossy rest
termination_by l => l.length
decreasing_by all_goals (simp only [List.length_cons]; omega)

/-- Modelled from the spec: the §4.4 fixed maximum character budget of
the text preview. -/
def maxPreviewChars : Nat := 2048

/-- Modelled from the spec: truncate the decoded codepoints to the fixed
character budget, appending U+2026 as the truncation marker. -/
def truncateText (cps : List Nat) : List Nat :=
  if cps.length ≤ maxPreviewChars then cps
  else cps.take maxPreviewChars ++ [8230]

/-- Hexadecimal digit as an uppercase character. -/
def hexDigit (n : Nat) : Char :=
  if n < 10 then Char.ofNat (48 + n) else Char.ofNat (55 + n)

/-- One byte rendered as two uppercase hex characters. -/
def hexByte (b : Nat) : String :=
  String.mk [hexDigit ((b / 16) % 16), hexDigit (b % 16)]

/-- Modelled from the spec: the §4.4 hex preview — the first 256 bytes as
space-separated uppercase hex pairs, with a truncation marker when the
field is larger. -/
def hexRender (bytes : List Nat) : String :=
  String.intercalate " " ((bytes.take 256).map hexByte) ++
    (if 256 < bytes.length then " …" else "")

/-- Modelled from the spec: the §4.4 fixed table from known format labels
to a canonical file extension. -/
def extFromHint (hint : String) : Option String :=
  List.lookup hint
    [("jpeg", "jpg"), ("jpg", "jpg"), ("png", "png"), ("pil", "png"),
     ("str", "txt"), ("txt", "txt"), ("numpy", "npy"), ("bytes", "bin")]

/-- Modelled from the spec: §4.4 magic-byte sniffing over the first bytes
of the field (common image, archive, and compression signatures). -/
def sniffMagic (bytes : List Nat) : Option String :=
  if [255, 216, 255].isPrefixOf bytes then some "jpg"
  else if [137, 80, 78, 71].isPrefixOf bytes then some "png"
  else if [71, 73, 70, 56].isPrefixOf bytes then some "gif"
  else if [80, 75, 3, 4].isPrefixOf bytes then some "zip"
  else if [31, 139].isPrefixOf bytes then some "gz"
  else if [40, 181, 47, 253].isPrefixOf bytes then some "zst"
  else none

/-- Modelled from the spec: §4.4 extension guess — the format-label table
first, then magic-byte sniffing, else absent. -/
def guessExt (bytes : List Nat) (hint : Option String) : Option String :=
  match hint.bind extFromHint with
  | some e => some e
  | none => sniffMagic bytes

/-- Modelled from the spec: `FieldPreview` of §3 — optional text preview
(as decoded codepoints), hex snippet, guessed extension, binary flag, and
the true untruncated byte size. -/
structure FieldPreview where
  previewText : Option (List Nat)
  hexSnippet : String
  guessedExt : Option String
  isBinary : Bool
  byteSize : Nat
deriving DecidableEq, Repr

/-- Modelled from the spec: the §4.4 binary/text classifier over a
bounded leading sample — binary on a NUL byte, a non-printable fraction
above the fixed threshold, or invalid UTF-8. -/
def classifyBinary (bytes : List Nat) : Bool :=
  let sample := bytes.take 4096
  sample.contains 0 ||
    decide (3 * sample.length < 10 * nonPrintableCount sample) ||
    !(validUtf8 sample)

/-- Modelled from the spec: `preview(bytes, formatHint)` of §4.4.  Text
fields get a lossy truncated text preview; the hex snippet is always
computed; `byteSize` is the untruncated length. -/
def preview (bytes : List Nat) (hint : Option String) : FieldPreview :=
  { previewText :=
      if classifyBinary bytes then none
      else some (truncateText (decodeLossy bytes))
    hexSnippet := hexRender bytes
    guessedExt := guessExt bytes hint
    isBinary := classifyBinary bytes
    byteSize := bytes.length }

/-- Modelled from the spec: the previewer exposed behind the fallible
operation surface of §6; by design it always succeeds. -/
def previewNoFail (bytes : List Nat) (hint : Option String) :
    Except CoreErr FieldPreview :=
  .ok (preview bytes hint)

/-- Modelled from the spec: `previewField` — read the field bytes and
produce their preview. -/
def previewField (h : ShardHandle) (fc i j : Nat) (hint : Option String) :
    Except CoreErr FieldPreview :=
  match readField h fc i j with
  | .error e => .error e
  | .ok b => .ok (preview b hint)

/-- Modelled from the spec: the §4.2 single-slot cache of the most
recently opened shard, keyed by filename. -/
structure ReaderState where
  cache : Option (String × ShardHandle)
deriving DecidableEq, Repr

/-- Modelled from the spec: open a shard from the file system (a map from
filename to raw bytes), installing the result in the single slot; a
failed open leaves the slot empty. -/
def openFreshly (fs : String → Option (List Nat)) (f : String) :
    Except CoreErr ShardHandle × ReaderState :=
  match fs f with
  | none => (.error .notFound, ⟨none⟩)
  | some bs =>
    match openShard bs with
    | .ok hdl => (.ok hdl, ⟨some (f, hdl)⟩)
    | .error e => (.error e, ⟨none⟩)

/-- Modelled from the spec: `openShard` through the §4.2 single-slot
cache — a hit returns the resident handle, a miss opens the file and
evicts the previous slot. -/
def openShardCached (fs : String → Option (List Nat)) (st : ReaderState)
    (f : String) : Except CoreErr ShardHandle × ReaderState :=
  match st.cache with
  | some (k, hdl) => if k = f then (.ok hdl, st) else openFreshly fs f
  | none => openFreshly fs f

/-- Modelled from the spec: the `listRecords` operation of §6, threading
the single-slot cache state. -/
def listRecordsS (fs : String → Option (List Nat)) (st : ReaderState)
    (f : String) (fc : Nat) :
    Except CoreErr (List RecordMeta) × ReaderState :=
  match openShardCached fs st f with
  | (.error e, st2) => (.error e, st2)
  | (.ok h, st2) => (listRecords h fc, st2)

/-- Modelled from the spec: the `previewField` operation of §6, threading
the single-slot cache state. -/
def previewFieldS (fs : String → Option (List Nat)) (st : ReaderState)
    (f : String) (fc i j : Nat) (hint : Option String) :
    Except CoreErr FieldPreview × ReaderState :=
  match openShardCached fs st f with
  | (.error e, st2) => (.error e, st2)
  | (.ok h, st2) => (previewField h fc i j hint, st2)

/-- Modelled from the spec: the §4.5 deterministic temporary path,
derived from the stable manifest/shard/record/field identity plus the
guessed extension. -/
def derivePath (tmpRoot manifestId shardName : String)
    (recordIndex fieldIndex : Nat) (ext : Option String) : String :=
  tmpRoot ++ "/" ++ manifestId ++ "_" ++ shardName ++ "_" ++
    Nat.repr recordIndex ++ "_" ++ Nat.repr fieldIndex ++
    (match ext with
     | some e => "." ++ e
     | none => "")

/-- Modelled from the spec: `materialize(bytes, ext, identity)` of §4.5
over a file system modelled as a map from path to contents — writes the
bytes at the derived path (overwriting) and returns the path with the
updated file system. -/
def materialize (fs : String → Option (List Nat))
    (tmpRoot manifestId shardName : String) (recordIndex fieldIndex : Nat)
    (ext : Option String) (bytes : List Nat) :
    String × (String → Option (List Nat)) :=
  let p := derivePath tmpRoot manifestId shardName recordIndex fieldIndex ext
  (p, fun q => if q = p then some bytes else fs q)

/-!
Frontend embeddings, translated from the TypeScript sources.
-/

/-- Embedded from the source: the `LoadMode` type of the zustand viewer
store. -/
inductive LoadMode where
  | indexMode (indexPath : String) (requestId : Nat)
  | chunksMode (paths : List String) (requestId : Nat)
deriving DecidableEq, Repr

/-- Embedded from the source: the state of the zustand viewer selection
store (`useViewerStore`). -/
structure ViewerState where
  indexPath : String
  chunkSelection : List String
  mode : Option LoadMode
  selectedChunkName : Option String
  selectedItemIndex : Option Nat
  selectedFieldIndex : Option Nat
  statusMessage : Option String
deriving DecidableEq, Repr

/-- Embedded from the source: `selectChunk` sets the chunk name and
resets the item and field selections to null. -/
def selectChunk (s : ViewerState) (filename : Option String) : ViewerState :=
  { s with selectedChunkName := filename, selectedItemIndex := none,
           selectedFieldIndex := none }

/-- Embedded from the source: `selectItem` sets the item index and resets
the field selection to null. -/
def selectItem (s : ViewerState) (idx : Option Nat) : ViewerState :=
  { s with selectedItemIndex := idx, selectedFieldIndex := none }

/-- Embedded from the source: `selectField` sets the field index. -/
def selectField (s : ViewerState) (idx : Option Nat) : ViewerState :=
  { s with selectedFieldIndex := idx }

/-- Whitespace characters removed by JavaScript `String.prototype.trim`:
the ECMAScript WhiteSpace and LineTerminator sets — TAB, LF, VT, FF, CR,
space, NBSP (U+00A0), U+1680, the Zs range U+2000–U+200A, the line and
paragraph separators U+2028/U+2029, U+202F, U+205F, U+3000, and the
zero-width no-break space U+FEFF. -/
def isJsSpace (c : Char) : Bool :=
  let n := c.toNat
  n == 0x9 || n == 0xA || n == 0xB || n == 0xC || n == 0xD || n == 0x20 ||
    n == 0xA0 || n == 0x1680 || decide (0x2000 ≤ n ∧ n ≤ 0x200A) ||
    n == 0x2028 || n == 0x2029 || n == 0x202F || n == 0x205F ||
    n == 0x3000 || n == 0xFEFF

/-- Trim leading and trailing whitespace from a character list. -/
def trimChars (l : List Char) : List Char :=
  ((l.dropWhile isJsSpace).reverse.dropWhile isJsSpace).reverse

/-- Embedded from the source: JavaScript `String.prototype.trim` as used
by the command wrappers. -/
def strTrim (s : String) : String :=
  String.mk (trimChars s.toList)

/-- Embedded from the source: the backend command invocations issued by
the typed wrappers in `tauri-api`. -/
inductive BackendCall where
  | loadIndexCmd (indexPath : String)
  | loadChunkListCmd (paths : List String)
deriving DecidableEq, Repr

/-- Embedded from the source: the `loadIndex` wrapper — requires the
Tauri runtime, trims the path, rejects an empty trimmed path, and
otherwise invokes the `load_index` command with the trimmed path. -/
def loadIndexW (tauri : Bool) (indexPath : String) :
    Except String BackendCall :=
  if tauri = false then .error "Loading index requires the Tauri runtime."
  else if strTrim indexPath = "" then
    .error "Provide an index.json path to load."
  else .ok (.loadIndexCmd (strTrim indexPath))

/-- Embedded from the source: the `loadChunkList` wrapper — requires the
Tauri runtime, rejects an empty path list, and otherwise invokes the
`load_chunk_list` command with the given paths. -/
def loadChunkListW (tauri : Bool) (paths : List String) :
    Except String BackendCall :=
  if tauri = false then .error "Loading chunks requires the Tauri runtime."
  else if paths.isEmpty then
    .error "Select at least one chunk file to load."
  else .ok (.loadChunkListCmd paths)

/-- Embedded from the source: the `PickResult` union returned by
`chooseIndexSource`. -/
inductive PickResult where
  | indexPick (indexPath : String)
  | chunksPick (paths : List String)
deriving DecidableEq, Repr

/-- Character-list suffix test, modelling JavaScript
`String.prototype.endsWith`. -/
def listEndsWith (s suf : List Char) : Bool := suf.isSuffixOf s

/-- Character-list substring test, modelling JavaScript
`String.prototype.includes`. -/
def listIncludes (needle : List Char) : List Char → Bool
  | [] => needle.isEmpty
  | c :: t => needle.isPrefixOf (c :: t) || listIncludes needle t

/-- Embedded from the source: the single-path test in
`chooseIndexSource` — the path ends with `.bin` or `.zst` or contains
`.bin`. -/
def isChunkPath (s : String) : Bool :=
  listEndsWith s.toList ".bin".toList || listEndsWith s.toList ".zst".toList ||
    listIncludes ".bin".toList s.toList

/-- Embedded from the source: classification of a single picked path. -/
def classifySingle (first : String) : Option PickResult :=
  if isChunkPath first then some (.chunksPick [first])
  else some (.indexPick first)

/-- Embedded from the source: the classification performed by
`chooseIndexSource` on the dialog result — `none` models a cancelled
dialog, `Sum.inl` a single string, `Sum.inr` an array of strings. -/
def classifyPick (picked : Option (Sum String (List String))) :
    Option PickResult :=
  match picked with
  | none => none
  | some (.inr ps) =>
    if 1 < ps.length then some (.chunksPick ps)
    else
      match ps.head? with
      | none => none
      | some first => classifySingle first
  | some (.inl s) => classifySingle s

/-!
Supporting lemmas.
-/

lemma readU32_some_bound {bs : List Nat} {pos v : Nat}
    (h : readU32 bs pos = some v) : pos + 4 ≤ bs.length := by
  unfold readU32 at h
  split at h
  · assumption
  · exact Option.noConfusion h

lemma readU32_some_of_bound {bs : List Nat} {pos : Nat}
    (h : pos + 4 ≤ bs.length) : ∃ v, readU32 bs pos = some v := by
  unfold readU32
  rw [if_pos h]
  exact ⟨_, rfl⟩

lemma readU32s_length : ∀ {c : Nat} {bs : List Nat} {pos : Nat} {l : List Nat},
    readU32s bs pos c = some l → l.length = c := by
  intro c
  induction c with
  | zero =>
    intro bs pos l h
    unfold readU32s at h
    rw [← Option.some.inj h]
    rfl
  | succ k ih =>
    intro bs pos l h
    unfold readU32s at h
    cases hv : readU32 bs pos with
    | none => rw [hv] at h; exact Option.noConfusion h
    | some v =>
      rw [hv] at h
      cases hr : readU32s bs (pos + 4) k with
      | none => rw [hr] at h; exact Option.noConfusion h
      | some rest =>
        rw [hr] at h
        rw [← Option.some.inj h]
        simp [ih hr]

lemma readU32s_bound : ∀ {c : Nat} {bs : List Nat} {pos : Nat} {l : List Nat},
    readU32s bs pos (c + 1) = some l → pos + 4 * (c + 1) ≤ bs.length := by
  intro c
  induction c with
  | zero =>
    intro bs pos l h
    unfold readU32s at h
    cases hv : readU32 bs pos with
    | none => rw [hv] at h; exact Option.noConfusion h
    | some v =>
      have := readU32_some_bound hv
      omega
  | succ k ih =>
    intro bs pos l h
    unfold readU32s at h
    cases hv : readU32 bs pos with
    | none => rw [hv] at h; exact Option.noConfusion h
    | some v =>
      rw [hv] at h
      cases hr : readU32s bs (pos + 4) (k + 1) with
      | none => rw [hr] at h; exact Option.noConfusion h
      | some rest =>
        have := ih hr
        omega

lemma chainNondec_iff : ∀ l : List Nat, chainNondec l = true ↔
    ∀ i, i + 1 < l.length → l.getD i 0 ≤ l.getD (i + 1) 0 := by
  intro l
  induction l with
  | nil => simp [chainNondec]
  | cons a tl ih =>
    cases tl with
    | nil => simp [chainNondec]
    | cons b tl2 =>
      rw [show chainNondec (a :: b :: tl2) =
            (Nat.ble a b && chainNondec (b :: tl2)) from rfl]
      rw [Bool.and_eq_true, Nat.ble_eq, ih]
      constructor
      · rintro ⟨hab, hch⟩ i hi
        cases i with
        | zero => simpa using hab
        | succ k =>
          have hk : k + 1 < (b :: tl2).length := by
            simp only [List.length_cons] at hi ⊢; omega
          simpa [List.getD_cons_succ] using hch k hk
      · intro hall
        constructor
        · simpa using hall 0 (by simp)
        · intro i hi
          have hi2 : (i + 1) + 1 < (a :: b :: tl2).length := by
            simp only [List.length_cons] at hi ⊢; omega
          simpa [List.getD_cons_succ] using hall (i + 1) hi2

lemma nondec_getD_mono {l : List Nat}
    (h : ∀ i, i + 1 < l.length → l.getD i 0 ≤ l.getD (i + 1) 0) :
    ∀ i j, i ≤ j → j < l.length → l.getD i 0 ≤ l.getD j 0 := by
  intro i j
  induction j with
  | zero =>
    intro hij _
    have : i = 0 := Nat.le_zero.mp hij
    simp [this]
  | succ k ihk =>
    intro hij hj
    rcases Nat.lt_or_ge i (k + 1) with hik | hik
    · have h1 : l.getD i 0 ≤ l.getD k 0 :=
        ihk (Nat.lt_succ_iff.mp hik) (Nat.lt_of_succ_lt hj)
      exact le_trans h1 (h k hj)
    · have : i = k + 1 := Nat.le_antisymm hij hik
      simp [this]

lemma consecutiveDiffs_length : ∀ l : List Nat,
    (consecutiveDiffs l).length = l.length - 1 := by
  intro l
  induction l with
  | nil => rfl
  | cons a tl ih =>
    cases tl with
    | nil => rfl
    | cons b tl2 =>
      rw [show consecutiveDiffs (a :: b :: tl2) =
            (b - a) :: consecutiveDiffs (b :: tl2) from rfl]
      simp only [List.length_cons, ih]
      omega

lemma consecutiveDiffs_getD : ∀ (l : List Nat) (k : Nat), k + 1 < l.length →
    (consecutiveDiffs l).getD k 0 = l.getD (k + 1) 0 - l.getD k 0 := by
  intro l
  induction l with
  | nil => intro k hk; simp at hk
  | cons a tl ih =>
    cases tl with
    | nil => intro k hk; simp at hk
    | cons b tl2 =>
      intro k hk
      rw [show consecutiveDiffs (a :: b :: tl2) =
            (b - a) :: consecutiveDiffs (b :: tl2) from rfl]
      cases k with
      | zero => simp
      | succ k2 =>
        have hk2 : k2 + 1 < (b :: tl2).length := by
          simp only [List.length_cons] at hk ⊢; omega
        simpa [List.getD_cons_succ] using ih k2 hk2

lemma consecutiveDiffs_sum : ∀ l : List Nat,
    (∀ i, i + 1 < l.length → l.getD i 0 ≤ l.getD (i + 1) 0) →
    (consecutiveDiffs l).sum = l.getD (l.length - 1) 0 - l.getD 0 0 := by
  intro l
  induction l with
  | nil => intro _; rfl
  | cons a tl ih =>
    cases tl with
    | nil => intro _; simp [consecutiveDiffs]
    | cons b tl2 =>
      intro hmono
      have hmono2 : ∀ i, i + 1 < (b :: tl2).length →
          (b :: tl2).getD i 0 ≤ (b :: tl2).getD (i + 1) 0 := by
        intro i hi
        have hi2 : (i + 1) + 1 < (a :: b :: tl2).length := by
          simp only [List.length_cons] at hi ⊢; omega
        simpa [List.getD_cons_succ] using hmono (i + 1) hi2
      have hab : a ≤ b := by simpa using hmono 0 (by simp)
      have hblast : b ≤ (b :: tl2).getD ((b :: tl2).length - 1) 0 := by
        have := nondec_getD_mono hmono2 0 ((b :: tl2).length - 1)
          (Nat.zero_le _) (by simp only [List.length_cons]; omega)
        simpa using this
      have hidx : (a :: b :: tl2).getD ((a :: b :: tl2).length - 1) 0 =
          (b :: tl2).getD ((b :: tl2).length - 1) 0 := by
        simp only [List.length_cons]
        rw [show tl2.length + 1 + 1 - 1 = (tl2.length) + 1 from rfl]
        rw [List.getD_cons_succ]
        simp only [Nat.add_sub_cancel]
      rw [show consecutiveDiffs (a :: b :: tl2) =
            (b - a) :: consecutiveDiffs (b :: tl2) from rfl]
      rw [List.sum_cons, ih hmono2, hidx]
      simp only [List.getD_cons_zero]
      omega

lemma mkFields_length : ∀ (l : List Nat) (j : Nat),
    (mkFields j l).length = l.length := by
  intro l
  induction l with
  | nil => intro j; rfl
  | cons s tl ih => intro j; simp [mkFields, ih]

lemma mkFields_map_byteSize : ∀ (l : List Nat) (j : Nat),
    (mkFields j l).map FieldMeta.byteSize = l := by
  intro l
  induction l with
  | nil => intro j; rfl
  | cons s tl ih => intro j; simp [mkFields, ih]

lemma mkFields_getD : ∀ (l : List Nat) (j k : Nat), k < l.length →
    (mkFields j l).getD k ⟨0, 0⟩ = ⟨j + k, l.getD k 0⟩ := by
  intro l
  induction l with
  | nil => intro j k hk; simp at hk
  | cons s tl ih =>
    intro j k hk
    cases k with
    | zero => simp [mkFields]
    | succ k2 =>
      have hk2 : k2 < tl.length := by
        simp only [List.length_cons] at hk; omega
      rw [show mkFields j (s :: tl) = ⟨j, s⟩ :: mkFields (j + 1) tl from rfl]
      rw [List.getD_cons_succ, List.getD_cons_succ, ih (j + 1) k2 hk2]
      congr 1
      omega

lemma offsetsValid_iff (offs : List Nat) (dataLen : Nat) :
    offsetsValid offs dataLen = true ↔
      (offs.getD 0 0 = 0 ∧
       (∀ i, i + 1 < offs.length → offs.getD i 0 ≤ offs.getD (i + 1) 0) ∧
       offs.getD (offs.length - 1) 0 = dataLen) := by
  unfold offsetsValid
  rw [Bool.and_eq_true, Bool.and_eq_true, chainNondec_iff]
  simp only [beq_iff_eq]
  tauto

lemma decodeSubTable_ok {fc : Nat} {b subs payload : List Nat}
    (h : decodeSubTable fc b = .ok (subs, payload)) :
    readU32s b 0 (fc + 1) = some subs ∧
    payload = b.drop (4 * (fc + 1)) ∧
    subs.length = fc + 1 ∧
    4 * (fc + 1) ≤ b.length ∧
    subs.getD 0 0 = 0 ∧
    (∀ i, i + 1 < subs.length → subs.getD i 0 ≤ subs.getD (i + 1) 0) ∧
    subs.getD fc 0 = payload.length := by
  unfold decodeSubTable at h
  cases hr : readU32s b 0 (fc + 1) with
  | none => rw [hr] at h; exact Except.noConfusion h
  | some subs2 =>
    rw [hr] at h
    have h2 : (if offsetsValid subs2 (b.drop (4 * (fc + 1))).length
          then (Except.ok (subs2, b.drop (4 * (fc + 1))) :
                 Except CoreErr (List Nat × List Nat))
          else .error .corruptShard) = .ok (subs, payload) := h
    by_cases hval : offsetsValid subs2 (b.drop (4 * (fc + 1))).length = true
    · rw [if_pos hval] at h2
      have hpair : (subs2, b.drop (4 * (fc + 1))) = (subs, payload) :=
        Except.ok.inj h2
      injection hpair with he1 he2
      subst he1; subst he2
      have hlen := readU32s_length hr
      have hbnd : 0 + 4 * (fc + 1) ≤ b.length := readU32s_bound hr
      obtain ⟨h0, hmono, hlast⟩ := (offsetsValid_iff _ _).mp hval
      refine ⟨rfl, rfl, hlen, by omega, h0, hmono, ?_⟩
      rw [hlen] at hlast
      simpa using hlast
    · rw [if_neg hval] at h2
      exact Except.noConfusion h2

lemma recordMetaOf_single {i : Nat} {b : List Nat} {m : RecordMeta}
    (hm : recordMetaOf 1 i b = .ok m) :
    m = ⟨i, b.length, [⟨0, b.length⟩]⟩ := by
  unfold recordMetaOf fieldSizes at hm
  rw [if_pos rfl] at hm
  exact (Except.ok.inj hm).symm

lemma recordMetaOf_multi_inv {fc i : Nat} {b : List Nat} {m : RecordMeta}
    (hfc : fc ≠ 1) (hm : recordMetaOf fc i b = .ok m) :
    ∃ subs payload, decodeSubTable fc b = .ok (subs, payload) ∧
      m = ⟨i, b.length, mkFields 0 (consecutiveDiffs subs)⟩ := by
  unfold recordMetaOf at hm
  cases hfs : fieldSizes fc b with
  | error e => rw [hfs] at hm; exact Except.noConfusion hm
  | ok sizes =>
    rw [hfs] at hm
    have hmeq : m = ⟨i, b.length, mkFields 0 sizes⟩ := (Except.ok.inj hm).symm
    unfold fieldSizes at hfs
    rw [if_neg hfc] at hfs
    cases hdt : decodeSubTable fc b with
    | error e => rw [hdt] at hfs; exact Except.noConfusion hfs
    | ok sp =>
      obtain ⟨subs, payload⟩ := sp
      rw [hdt] at hfs
      have hsz : consecutiveDiffs subs = sizes := Except.ok.inj hfs
      exact ⟨subs, payload, rfl, by rw [hmeq, ← hsz]⟩

lemma multi_field_getD {fc : Nat} {b subs payload : List Nat}
    (hdt : decodeSubTable fc b = .ok (subs, payload)) {j : Nat} (hj : j < fc) :
    (mkFields 0 (consecutiveDiffs subs)).getD j ⟨0, 0⟩ =
      ⟨j, subs.getD (j + 1) 0 - subs.getD j 0⟩ := by
  obtain ⟨_, _, hslen, _, _, _, _⟩ := decodeSubTable_ok hdt
  have hdl : (consecutiveDiffs subs).length = fc := by
    rw [consecutiveDiffs_length, hslen]
    omega
  rw [mkFields_getD _ 0 j (by omega)]
  rw [consecutiveDiffs_getD subs j (by omega)]
  simp

lemma readField_multi_length {fc : Nat} {b subs payload : List Nat}
    (hdt : decodeSubTable fc b = .ok (subs, payload)) {j : Nat} (hj : j < fc) :
    ((payload.drop (subs.getD j 0)).take
        (subs.getD (j + 1) 0 - subs.getD j 0)).length =
      subs.getD (j + 1) 0 - subs.getD j 0 := by
  obtain ⟨_, _, hslen, _, _, hmono, hlast⟩ := decodeSubTable_ok hdt
  have hle : subs.getD (j + 1) 0 ≤ payload.length := by
    have := nondec_getD_mono hmono (j + 1) fc (by omega) (by omega)
    omega
  rw [List.length_take, List.length_drop]
  omega

lemma multi_field_sum {fc : Nat} {b subs payload : List Nat}
    (hdt : decodeSubTable fc b = .ok (subs, payload)) :
    ((mkFields 0 (consecutiveDiffs subs)).map FieldMeta.byteSize).sum +
      (fc + 1) * 4 = b.length := by
  obtain ⟨hr, hp, hslen, hbnd, h0, hmono, hlast⟩ := decodeSubTable_ok hdt
  rw [mkFields_map_byteSize]
  rw [consecutiveDiffs_sum subs hmono]
  have hplen : payload.length = b.length - 4 * (fc + 1) := by
    rw [hp, List.length_drop]
  rw [hslen]
  simp only [Nat.add_sub_cancel]
  omega

lemma consRecord_ok {m : Except CoreErr RecordMeta}
    {rest : Except CoreErr (List RecordMeta)} {ms : List RecordMeta}
    (h : consRecord m rest = .ok ms) :
    ∃ mv rs, m = .ok mv ∧ rest = .ok rs ∧ ms = mv :: rs := by
  unfold consRecord at h
  cases m with
  | error e => exact Except.noConfusion h
  | ok mv =>
    cases rest with
    | error e => exact Except.noConfusion h
    | ok rs => exact ⟨mv, rs, rfl, rfl, (Except.ok.inj h).symm⟩

lemma recordAt_ok {h : ShardHandle} {fc i : Nat} {m : RecordMeta}
    (hr : recordAt h fc i = .ok m) :
    ∃ b, sliceRecord h i = .ok b ∧ recordMetaOf fc i b = .ok m := by
  unfold recordAt at hr
  cases hs : sliceRecord h i with
  | error e => rw [hs] at hr; exact Except.noConfusion hr
  | ok b => rw [hs] at hr; exact ⟨b, rfl, hr⟩

lemma collectFrom_ok (h : ShardHandle) (fc : Nat) :
    ∀ (k i : Nat) (ms : List RecordMeta), collectFrom h fc i k = .ok ms →
    ms.length = k ∧
    ∀ t, t < k → ∃ b, sliceRecord h (i + t) = .ok b ∧
      recordMetaOf fc (i + t) b = .ok (ms.getD t ⟨0, 0, []⟩) := by
  intro k
  induction k with
  | zero =>
    intro i ms hok
    unfold collectFrom at hok
    have : ([] : List RecordMeta) = ms := Except.ok.inj hok
    subst this
    exact ⟨rfl, by intro t ht; omega⟩
  | succ k ihk =>
    intro i ms hok
    unfold collectFrom at hok
    obtain ⟨mv, rs, hmv, hrs, hcons⟩ := consRecord_ok hok
    subst hcons
    obtain ⟨b, hs, hm⟩ := recordAt_ok hmv
    obtain ⟨hlen, hall⟩ := ihk (i + 1) rs hrs
    refine ⟨by simp [hlen], ?_⟩
    intro t ht
    cases t with
    | zero =>
      refine ⟨b, ?_, ?_⟩
      · simpa using hs
      · simpa using hm
    | succ t2 =>
      obtain ⟨b2, hs2, hm2⟩ := hall t2 (by omega)
      have hidx : i + (t2 + 1) = (i + 1) + t2 := by omega
      refine ⟨b2, ?_, ?_⟩
      · rw [hidx]; exact hs2
      · rw [hidx]
        simpa [List.getD_cons_succ] using hm2

/-!
Claim theorems.
-/

/-- C8: in the viewer selection store, every `selectChunk` call resets
`selectedItemIndex` and `selectedFieldIndex` to null, and every
`selectItem` call resets `selectedFieldIndex` to null, so after any
selection change at one level no stale selection at a lower level
survives. -/
theorem selection_store_resets_lower_levels :
    ∀ (s : ViewerState) (fn : Option String) (idx : Option Nat),
      (selectChunk s fn).selectedItemIndex = none ∧
      (selectChunk s fn).selectedFieldIndex = none ∧
      (selectItem s idx).selectedFieldIndex = none := by
  intro s fn idx
  exact ⟨rfl, rfl, rfl⟩

/-- C9: the frontend command wrappers reject degenerate input before
invoking the backend — an empty trimmed index path makes `loadIndex`
throw without invoking `load_index`, an empty path list makes
`loadChunkList` throw without invoking `load_chunk_list`, and
non-degenerate input (in the Tauri runtime) invokes the corresponding
command with the trimmed path or the given path list. -/
theorem command_wrappers_reject_degenerate_input :
    (∀ (t : Bool) (p : String), strTrim p = "" →
        ∀ c, loadIndexW t p ≠ .ok c) ∧
    (∀ (t : Bool) (ps : List String), ps = [] →
        ∀ c, loadChunkListW t ps ≠ .ok c) ∧
    (∀ p : String, strTrim p ≠ "" →
        loadIndexW true p = .ok (.loadIndexCmd (strTrim p))) ∧
    (∀ ps : List String, ps ≠ [] →
        loadChunkListW true ps = .ok (.loadChunkListCmd ps)) := by
  refine ⟨?_, ?_, ?_, ?_⟩
  · intro t p hp c
    cases t <;> simp [loadIndexW, hp]
  · intro t ps hps c
    subst hps
    cases t <;> simp [loadChunkListW]
  · intro p hp
    simp [loadIndexW, hp]
  · intro ps hps
    simp [loadChunkListW, List.isEmpty_iff, hps]

/-- Witness for C9 at concrete inputs, including a path made only of a
no-break space (U+00A0), which JavaScript `trim` reduces to the empty
string. -/
theorem command_wrappers_reject_degenerate_input_check :
    loadIndexW true "   " ≠ .ok (.loadIndexCmd "x") ∧
    loadIndexW true "\u00A0" ≠ .ok (.loadIndexCmd "\u00A0") ∧
    loadChunkListW true [] ≠ .ok (.loadChunkListCmd ["x"]) ∧
    loadIndexW true " a " = .ok (.loadIndexCmd "a") ∧
    loadChunkListW true ["p"] = .ok (.loadChunkListCmd ["p"]) :=
  ⟨command_wrappers_reject_degenerate_input.1 true "   " (by decide) _,
   command_wrappers_reject_degenerate_input.1 true "\u00A0" (by decide) _,
   command_wrappers_reject_degenerate_input.2.1 true [] rfl _,
   command_wrappers_reject_degenerate_input.2.2.1 " a " (by decide),
   command_wrappers_reject_degenerate_input.2.2.2 ["p"] (by decide)⟩

/-- C10: `chooseIndexSource` classifies the picker result
deterministically — a null pick returns null, more than one picked path
returns chunks with all paths, a single path that ends with `.bin` or
`.zst` or contains `.bin` returns chunks with that path, and any other
single string path returns index with that path. -/
theorem choose_index_source_classification :
    classifyPick none = none ∧
    (∀ ps : List String, 1 < ps.length →
        classifyPick (some (.inr ps)) = some (.chunksPick ps)) ∧
    (∀ s : String, isChunkPath s = true →
        classifyPick (some (.inl s)) = some (.chunksPick [s]) ∧
        classifyPick (some (.inr [s])) = some (.chunksPick [s])) ∧
    (∀ s : String, isChunkPath s = false →
        classifyPick (some (.inl s)) = some (.indexPick s) ∧
        classifyPick (some (.inr [s])) = some (.indexPick s)) := by
  refine ⟨rfl, ?_, ?_, ?_⟩
  · intro ps hps
    simp [classifyPick, hps]
  · intro s hs
    constructor <;> simp [classifyPick, classifySingle, hs]
  · intro s hs
    constructor <;> simp [classifyPick, classifySingle, hs]

/-- Witness for C10 at concrete inputs. -/
theorem choose_index_source_classification_check :
    classifyPick (some (.inr ["a", "b"])) = some (.chunksPick ["a", "b"]) ∧
    classifyPick (some (.inl "x.bin")) = some (.chunksPick ["x.bin"]) ∧
    classifyPick (some (.inl "idx.json")) = some (.indexPick "idx.json") :=
  ⟨choose_index_source_classification.2.1 ["a", "b"] (by decide),
   (choose_index_source_classification.2.2.1 "x.bin" (by decide)).1,
   (choose_index_source_classification.2.2.2 "idx.json" (by decide)).1⟩

/-- C3: for every input byte sequence and every format hint, `preview`
returns a `FieldPreview` and never fails — the operation surface always
succeeds, a preview with no text is classified binary, the hex snippet is
always computed, and `byteSize` is the full input length. -/
theorem preview_never_fails :
    ∀ (bytes : List Nat) (hint : Option String),
      previewNoFail bytes hint = .ok (preview bytes hint) ∧
      ((preview bytes hint).isBinary ||
        (preview bytes hint).previewText.isSome) = true ∧
      (preview bytes hint).hexSnippet = hexRender bytes ∧
      (preview bytes hint).byteSize = bytes.length := by
  intro bytes hint
  refine ⟨rfl, ?_, rfl, rfl⟩
  cases hb : classifyBinary bytes <;> simp [preview, hb]

/-- C7: `materializeField` is idempotent on its output path — the path
depends only on the stable identity and guessed extension (not on the
file-system state), the write lands at that path, and a second
materialization of the same field overwrites the same file rather than
creating an additional one. -/
theorem materialize_idempotent_path :
    ∀ (fs fs2 : String → Option (List Nat)) (tmpRoot m sh : String)
      (ri fi : Nat) (ext : Option String) (bytes : List Nat),
      (materialize fs tmpRoot m sh ri fi ext bytes).1 =
        (materialize fs2 tmpRoot m sh ri fi ext bytes).1 ∧
      (materialize fs tmpRoot m sh ri fi ext bytes).2
          ((materialize fs tmpRoot m sh ri fi ext bytes).1) = some bytes ∧
      materialize ((materialize fs tmpRoot m sh ri fi ext bytes).2)
          tmpRoot m sh ri fi ext bytes =
        materialize fs tmpRoot m sh ri fi ext bytes := by
  intro fs fs2 tmpRoot m sh ri fi ext bytes
  refine ⟨rfl, by simp [materialize], ?_⟩
  unfold materialize
  refine congrArg (Prod.mk _) ?_
  funext q
  by_cases hq : q = derivePath tmpRoot m sh ri fi ext <;> simp [hq]

/-- C6: for every shard handle with at least one record, record index
`recordCount` fails with `IndexOutOfRange` while `recordCount - 1`
succeeds; more generally any out-of-range record or field index passed to
`sliceRecord` or the record-extractor operations fails with
`IndexOutOfRange`. -/
theorem index_bounds_checked :
    ∀ h : ShardHandle,
      (1 ≤ h.recordCount →
        sliceRecord h h.recordCount = .error .indexOutOfRange ∧
        ∃ b, sliceRecord h (h.recordCount - 1) = .ok b) ∧
      (∀ i, h.recordCount ≤ i →
        sliceRecord h i = .error .indexOutOfRange) ∧
      (∀ fc i j, h.recordCount ≤ i →
        readField h fc i j = .error .indexOutOfRange) ∧
      (∀ fc i j, i < h.recordCount → fc ≤ j →
        readField h fc i j = .error .indexOutOfRange) := by
  intro h
  refine ⟨?_, ?_, ?_, ?_⟩
  · intro h1
    constructor
    · simp [sliceRecord]
    · refine ⟨(h.data.drop (h.offsets.getD (h.recordCount - 1) 0)).take
          (h.offsets.getD (h.recordCount - 1 + 1) 0 -
            h.offsets.getD (h.recordCount - 1) 0), ?_⟩
      simp [sliceRecord, Nat.sub_lt h1 Nat.one_pos]
  · intro i hi
    simp [sliceRecord, Nat.not_lt.mpr hi]
  · intro fc i j hi
    simp [readField, sliceRecord, Nat.not_lt.mpr hi]
  · intro fc i j hi hj
    simp [readField, sliceRecord, hi, readFieldFrom, Nat.not_lt.mpr hj]

/-- Concrete shard handle used by witnesses. -/
def sampleHandle : ShardHandle := ⟨2, [0, 1, 3], [5, 6, 7]⟩

/-- Witness for C6 at a concrete handle. -/
theorem index_bounds_checked_check :
    (sliceRecord sampleHandle 2 = .error .indexOutOfRange ∧
      ∃ b, sliceRecord sampleHandle 1 = .ok b) ∧
    sliceRecord sampleHandle 5 = .error .indexOutOfRange ∧
    readField sampleHandle 1 7 0 = .error .indexOutOfRange ∧
    readField sampleHandle 1 0 3 = .error .indexOutOfRange :=
  ⟨(index_bounds_checked sampleHandle).1 (by decide),
   (index_bounds_checked sampleHandle).2.1 5 (by decide),
   (index_bounds_checked sampleHandle).2.2.1 1 7 0 (by decide),
   (index_bounds_checked sampleHandle).2.2.2 1 0 3 (by decide) (by decide)⟩

lemma openFreshly_then_hit (fs : String → Option (List Nat)) (f : String) :
    openShardCached fs (openFreshly fs f).2 f = openFreshly fs f := by
  cases hfs : fs f with
  | none => simp [openShardCached, openFreshly, hfs]
  | some bs =>
    cases hos : openShard bs with
    | ok hdl => simp [openShardCached, openFreshly, hfs, hos]
    | error e => simp [openShardCached, openFreshly, hfs, hos]

lemma openShardCached_idem (fs : String → Option (List Nat))
    (st : ReaderState) (f : String) :
    openShardCached fs (openShardCached fs st f).2 f =
      openShardCached fs st f := by
  rcases st with ⟨cache⟩
  cases cache with
  | none => exact openFreshly_then_hit fs f
  | some kh =>
    rcases kh with ⟨k, hdl⟩
    by_cases hk : k = f
    · subst hk
      simp [openShardCached]
    · have h1 : openShardCached fs ⟨some (k, hdl)⟩ f = openFreshly fs f := by
        simp [openShardCached, hk]
      rw [h1]
      exact openFreshly_then_hit fs f

lemma listRecordsS_snd (fs : String → Option (List Nat)) (st : ReaderState)
    (f : String) (fc : Nat) :
    (listRecordsS fs st f fc).2 = (openShardCached fs st f).2 := by
  unfold listRecordsS
  rcases h : openShardCached fs st f with ⟨r, st2⟩
  cases r <;> rfl

lemma listRecordsS_congr (fs : String → Option (List Nat))
    (st st2 : ReaderState) (f : String) (fc : Nat)
    (hsame : openShardCached fs st2 f = openShardCached fs st f) :
    listRecordsS fs st2 f fc = listRecordsS fs st f fc := by
  unfold listRecordsS
  rw [hsame]

lemma previewFieldS_snd (fs : String → Option (List Nat)) (st : ReaderState)
    (f : String) (fc i j : Nat) (hint : Option String) :
    (previewFieldS fs st f fc i j hint).2 = (openShardCached fs st f).2 := by
  unfold previewFieldS
  rcases h : openShardCached fs st f with ⟨r, st2⟩
  cases r <;> rfl

lemma previewFieldS_congr (fs : String → Option (List Nat))
    (st st2 : ReaderState) (f : String) (fc i j : Nat) (hint : Option String)
    (hsame : openShardCached fs st2 f = openShardCached fs st f) :
    previewFieldS fs st2 f fc i j hint = previewFieldS fs st f fc i j hint := by
  unfold previewFieldS
  rw [hsame]

/-- C4: `listRecords` and `previewField` are deterministic and
idempotent — repeating either operation on the same shard and
coordinates, threading the single-slot cache state left by the first
call, returns an identical result. -/
theorem list_and_preview_idempotent :
    ∀ (fs : String → Option (List Nat)) (st : ReaderState) (f : String)
      (fc i j : Nat) (hint : Option String),
      (listRecordsS fs ((listRecordsS fs st f fc).2) f fc).1 =
        (listRecordsS fs st f fc).1 ∧
      (previewFieldS fs ((previewFieldS fs st f fc i j hint).2)
          f fc i j hint).1 =
        (previewFieldS fs st f fc i j hint).1 := by
  intro fs st f fc i j hint
  constructor
  · rw [listRecordsS_snd]
    rw [listRecordsS_congr fs st _ f fc (openShardCached_idem fs st f)]
  · rw [previewFieldS_snd]
    rw [previewFieldS_congr fs st _ f fc i j hint
          (openShardCached_idem fs st f)]

/-- The record-offset-table invariants of §4.2 for declared record count
`n`: the table has exactly `n + 1` entries, `offset[0] = 0`, consecutive
offsets non-decreasing, and `offset[n]` equal to the data-region byte
length. -/
def ShardInvariants (n : Nat) (offs : List Nat) (dataLen : Nat) : Prop :=
  offs.length = n + 1 ∧
  offs.getD 0 0 = 0 ∧
  (∀ i, i + 1 < offs.length → offs.getD i 0 ≤ offs.getD (i + 1) 0) ∧
  offs.getD n 0 = dataLen

/-- C1: `openShard` validates the record offset table — a successful open
means the table occupies exactly `4*(N+1)` bytes for the declared record
count `N` and all offset invariants hold; a byte buffer too short for the
table, or a parsed table violating the invariants, fails with
`CorruptShard`. -/
theorem openShard_validates_offset_table :
    ∀ (bytes : List Nat) (n : Nat), readU32 bytes 0 = some n →
      (∀ h, openShard bytes = .ok h →
          h.recordCount = n ∧ 4 + 4 * (n + 1) ≤ bytes.length ∧
          ShardInvariants n h.offsets h.data.length) ∧
      (bytes.length < 4 + 4 * (n + 1) →
          openShard bytes = .error .corruptShard) ∧
      (∀ offs, readU32s bytes 4 (n + 1) = some offs →
          ¬ ShardInvariants n offs (bytes.length - (4 + 4 * (n + 1))) →
          openShard bytes = .error .corruptShard) := by
  intro bytes n hn
  have hshape : openShard bytes = openShardWith n bytes := by
    unfold openShard
    rw [hn]
  refine ⟨?_, ?_, ?_⟩
  · intro h hok
    rw [hshape] at hok
    unfold openShardWith at hok
    cases hofs : readU32s bytes 4 (n + 1) with
    | none => rw [hofs] at hok; exact Except.noConfusion hok
    | some offs =>
      rw [hofs] at hok
      have hok2 : (if offsetsValid offs (bytes.length - (4 + 4 * (n + 1)))
            then (Except.ok ⟨n, offs, bytes.drop (4 + 4 * (n + 1))⟩ :
                   Except CoreErr ShardHandle)
            else .error .corruptShard) = .ok h := hok
      by_cases hval :
          offsetsValid offs (bytes.length - (4 + 4 * (n + 1))) = true
      · rw [if_pos hval] at hok2
        have hh : (⟨n, offs, bytes.drop (4 + 4 * (n + 1))⟩ : ShardHandle)
            = h := Except.ok.inj hok2
        subst hh
        have hlen := readU32s_length hofs
        have hbnd : 4 + 4 * (n + 1) ≤ bytes.length := readU32s_bound hofs
        obtain ⟨h0, hmono, hlast⟩ := (offsetsValid_iff _ _).mp hval
        refine ⟨rfl, hbnd, hlen, h0, hmono, ?_⟩
        rw [hlen] at hlast
        simp only [Nat.add_sub_cancel] at hlast
        simpa [List.length_drop] using hlast
      · rw [if_neg hval] at hok2
        exact Except.noConfusion hok2
  · intro hlt
    rw [hshape]
    unfold openShardWith
    cases hofs : readU32s bytes 4 (n + 1) with
    | none => rfl
    | some offs =>
      have hbnd : 4 + 4 * (n + 1) ≤ bytes.length := readU32s_bound hofs
      omega
  · intro offs hofs hninv
    rw [hshape]
    unfold openShardWith
    rw [hofs]
    show (if offsetsValid offs (bytes.length - (4 + 4 * (n + 1)))
          then (Except.ok ⟨n, offs, bytes.drop (4 + 4 * (n + 1))⟩ :
                 Except CoreErr ShardHandle)
          else .error .corruptShard) = .error .corruptShard
    have hlen := readU32s_length hofs
    by_cases hval :
        offsetsValid offs (bytes.length - (4 + 4 * (n + 1))) = true
    · exfalso
      apply hninv
      obtain ⟨h0, hmono, hlast⟩ := (offsetsValid_iff _ _).mp hval
      refine ⟨hlen, h0, hmono, ?_⟩
      rw [hlen] at hlast
      simpa using hlast
    · rw [if_neg hval]

/-- Concrete shard bytes used by the C1 witness: record count 1, offsets
`[0, 3]`, data region `[9, 9, 9]`. -/
def sampleShardBytes : List Nat :=
  [1, 0, 0, 0, 0, 0, 0, 0, 3, 0, 0, 0, 9, 9, 9]

/-- Witness for C1 at a concrete shard. -/
theorem openShard_validates_offset_table_check :
    ShardInvariants 1 [0, 3] 3 :=
  ((openShard_validates_offset_table sampleShardBytes 1 (by decide)).1
    ⟨1, [0, 3], [9, 9, 9]⟩ (by decide)).2.2

/-- C2: for every record of a dataset with more than one field,
`listRecords` decodes a field sub-offset table of `fieldCount + 1` u32
offsets and sets the j-th field's `byteSize` to
`subOffset[j+1] - subOffset[j]`, so the sum of the field sizes plus
`(fieldCount+1)*4` bytes of sub-table equals the record's total byte
length. -/
theorem listRecords_subtable_sizes :
    ∀ (h : ShardHandle) (fc : Nat) (ms : List RecordMeta) (t : Nat),
      1 < fc → listRecords h fc = .ok ms → t < ms.length →
      (((ms.getD t ⟨0, 0, []⟩).fields.map FieldMeta.byteSize).sum +
          (fc + 1) * 4 = (ms.getD t ⟨0, 0, []⟩).totalBytes) ∧
      ∃ b subs, sliceRecord h t = .ok b ∧
        readU32s b 0 (fc + 1) = some subs ∧
        ∀ j, j < fc → (ms.getD t ⟨0, 0, []⟩).fields.getD j ⟨0, 0⟩ =
          ⟨j, subs.getD (j + 1) 0 - subs.getD j 0⟩ := by
  intro h fc ms t hfc hok ht
  obtain ⟨hlen, hall⟩ := collectFrom_ok h fc h.recordCount 0 ms hok
  obtain ⟨b, hs, hm⟩ := hall t (by omega)
  rw [Nat.zero_add] at hs hm
  obtain ⟨subs, payload, hdt, hmeq⟩ := recordMetaOf_multi_inv (by omega) hm
  refine ⟨?_, b, subs, hs, (decodeSubTable_ok hdt).1, ?_⟩
  · rw [hmeq]
    exact multi_field_sum hdt
  · intro j hj
    rw [hmeq]
    exact multi_field_getD hdt hj

/-- Concrete two-field shard handle used by witnesses: one record of 17
bytes — a 12-byte sub-offset table `[0, 2, 5]` followed by a 5-byte
payload split into fields of 2 and 3 bytes. -/
def multiFieldHandle : ShardHandle :=
  ⟨1, [0, 17], [0, 0, 0, 0, 2, 0, 0, 0, 5, 0, 0, 0, 10, 20, 30, 40, 50]⟩

/-- The record listing of `multiFieldHandle` with two fields. -/
def multiFieldRecords : List RecordMeta := [⟨0, 17, [⟨0, 2⟩, ⟨1, 3⟩]⟩]

/-- Witness for C2 at a concrete two-field shard. -/
theorem listRecords_subtable_sizes_check :
    (((multiFieldRecords.getD 0 ⟨0, 0, []⟩).fields.map
        FieldMeta.byteSize).sum + (2 + 1) * 4 =
      (multiFieldRecords.getD 0 ⟨0, 0, []⟩).totalBytes) ∧
    ∃ b subs, sliceRecord multiFieldHandle 0 = .ok b ∧
      readU32s b 0 (2 + 1) = some subs ∧
      ∀ j, j < 2 → (multiFieldRecords.getD 0 ⟨0, 0, []⟩).fields.getD j
        ⟨0, 0⟩ = ⟨j, subs.getD (j + 1) 0 - subs.getD j 0⟩ :=
  listRecords_subtable_sizes multiFieldHandle 2 multiFieldRecords 0
    (by decide) (by decide) (by decide)

lemma previewField_ok {h : ShardHandle} {fc i j : Nat}
    {hint : Option String} {fp : FieldPreview}
    (hp : previewField h fc i j hint = .ok fp) :
    ∃ b, readField h fc i j = .ok b ∧ fp = preview b hint := by
  unfold previewField at hp
  cases hb : readField h fc i j with
  | error e => rw [hb] at hp; exact Except.noConfusion hp
  | ok b => rw [hb] at hp; exact ⟨b, rfl, (Except.ok.inj hp).symm⟩

lemma readField_ok {h : ShardHandle} {fc i j : Nat} {b : List Nat}
    (hr : readField h fc i j = .ok b) :
    ∃ r, sliceRecord h i = .ok r ∧ readFieldFrom fc j r = .ok b := by
  unfold readField at hr
  cases hs : sliceRecord h i with
  | error e => rw [hs] at hr; exact Except.noConfusion hr
  | ok r => rw [hs] at hr; exact ⟨r, rfl, hr⟩

lemma sliceRecord_ok_lt {h : ShardHandle} {i : Nat} {r : List Nat}
    (hs : sliceRecord h i = .ok r) : i < h.recordCount := by
  by_contra hno
  unfold sliceRecord at hs
  rw [if_neg hno] at hs
  exact Except.noConfusion hs

lemma readFieldFrom_ok_lt {fc j : Nat} {r b : List Nat}
    (hr : readFieldFrom fc j r = .ok b) : j < fc := by
  by_contra hno
  unfold readFieldFrom at hr
  rw [if_neg hno] at hr
  exact Except.noConfusion hr

lemma readFieldFrom_single {j : Nat} {r b : List Nat}
    (hr : readFieldFrom 1 j r = .ok b) : b = r := by
  have hj := readFieldFrom_ok_lt hr
  unfold readFieldFrom at hr
  rw [if_pos hj, if_pos rfl] at hr
  exact (Except.ok.inj hr).symm

lemma readFieldFrom_multi {fc j : Nat} {r b : List Nat}
    (hfc : fc ≠ 1) (hr : readFieldFrom fc j r = .ok b) :
    ∃ subs payload, decodeSubTable fc r = .ok (subs, payload) ∧
      b = (payload.drop (subs.getD j 0)).take
            (subs.getD (j + 1) 0 - subs.getD j 0) := by
  have hj := readFieldFrom_ok_lt hr
  unfold readFieldFrom at hr
  rw [if_pos hj, if_neg hfc] at hr
  cases hdt : decodeSubTable fc r with
  | error e => rw [hdt] at hr; exact Except.noConfusion hr
  | ok sp =>
    obtain ⟨subs, payload⟩ := sp
    rw [hdt] at hr
    exact ⟨subs, payload, rfl, (Except.ok.inj hr).symm⟩

/-- C5: for every valid coordinates, the `byteSize` of the
`FieldPreview` returned by `previewField` equals the `FieldMeta.byteSize`
of the same field in the `listRecords` result, and it is the true
untruncated field length (the raw field byte count, independent of any
preview truncation). -/
theorem previewField_bytesize_agrees :
    ∀ (h : ShardHandle) (fc i j : Nat) (hint : Option String)
      (ms : List RecordMeta) (fp : FieldPreview),
      listRecords h fc = .ok ms → previewField h fc i j hint = .ok fp →
      ∃ b, readField h fc i j = .ok b ∧ fp.byteSize = b.length ∧
        fp.byteSize =
          ((ms.getD i ⟨0, 0, []⟩).fields.getD j ⟨0, 0⟩).byteSize := by
  intro h fc i j hint ms fp hls hpf
  obtain ⟨b, hrf, hfp⟩ := previewField_ok hpf
  subst hfp
  refine ⟨b, hrf, rfl, ?_⟩
  obtain ⟨r, hs, hff⟩ := readField_ok hrf
  have hi := sliceRecord_ok_lt hs
  have hj := readFieldFrom_ok_lt hff
  obtain ⟨hlen, hall⟩ := collectFrom_ok h fc h.recordCount 0 ms hls
  obtain ⟨r2, hs2, hm2⟩ := hall i (by omega)
  rw [Nat.zero_add] at hs2 hm2
  have hr2 : r2 = r := Except.ok.inj (hs2.symm.trans hs)
  rw [hr2] at hm2
  by_cases hfc1 : fc = 1
  · subst hfc1
    have hb : b = r := readFieldFrom_single hff
    have hmeta := recordMetaOf_single hm2
    have hj0 : j = 0 := by omega
    subst hj0
    rw [hmeta, hb]
    rfl
  · obtain ⟨subs, payload, hdt, hbslice⟩ := readFieldFrom_multi hfc1 hff
    obtain ⟨subs2, payload2, hdt2, hmeq⟩ := recordMetaOf_multi_inv hfc1 hm2
    have hpp : (subs, payload) = (subs2, payload2) :=
      Except.ok.inj (hdt.symm.trans hdt2)
    injection hpp with he1 he2
    subst he1
    subst he2
    rw [hmeq]
    rw [show ((⟨i, r.length, mkFields 0 (consecutiveDiffs subs)⟩ :
          RecordMeta).fields) = mkFields 0 (consecutiveDiffs subs) from rfl]
    rw [multi_field_getD hdt hj]
    show b.length = subs.getD (j + 1) 0 - subs.getD j 0
    rw [hbslice]
    exact readField_multi_length hdt hj

/-- Witness for C5 at a concrete two-field shard. -/
theorem previewField_bytesize_agrees_check :
    ∃ b, readField multiFieldHandle 2 0 1 = .ok b ∧
      (preview [30, 40, 50] none).byteSize = b.length ∧
      (preview [30, 40, 50] none).byteSize =
        ((multiFieldRecords.getD 0 ⟨0, 0, []⟩).fields.getD 1
          ⟨0, 0⟩).byteSize :=
  previewField_bytesize_agrees multiFieldHandle 2 0 1 none multiFieldRecords
    (preview [30, 40, 50] none) (by decide) (by decide)

end LitData
